import Mathlib

/-!
Verification of the magnetization trajectory sampler of `bloch_improved.py`.

The sampler is the loop of `ImprovedBlochEquation.show_relaxation_enhanced`:

    steps = int(total_time / dt)
    for i in range(steps):
        t = (i + 1) * dt
        decay_t2 = np.exp(-t / self.T2)
        M_transverse_t = initial_M_transverse * decay_t2
        Mz_t = Mz_equilibrium * (1 - np.exp(-t / self.T1))
        alpha = t / total_time
        current_pos = (1 - alpha) * start_pos + alpha * np.array(final_pos)
        ... emit (current_pos, t) ...
    ... emit (equilibrium_end, total_time) ...   -- corrective final sample

Numeric values are embedded as exact rationals (the spec describes the
algorithm in real arithmetic).  The external library routines `np.exp`,
`np.sin`, `np.cos` are abstracted as function parameters `ex`, `sin`, `cos`
of type `ℚ → ℚ`: the loop calls them and binds their results, but (as the
theorems below show) the emitted samples never depend on them.

Where a result depends on the machine arithmetic the program actually
executes — the step count at totalDuration 0.3, stepSize 0.05 — the IEEE
binary64 semantics of Python floats is modelled exactly: every finite
double is a rational, and each operation returns its exact result rounded
to nearest with ties to even (`roundBinary64`, ulp scale per binade).
-/

/-- A 3-vector of rationals, the embedding of a length-3 numpy array. -/
structure Vec3 where
  x : ℚ
  y : ℚ
  z : ℚ
deriving DecidableEq, Repr

/-- Scalar multiplication `a * v` of a numpy 3-vector. -/
def Vec3.smul (a : ℚ) (v : Vec3) : Vec3 :=
  ⟨a * v.x, a * v.y, a * v.z⟩

/-- Componentwise addition of numpy 3-vectors. -/
def Vec3.add (u v : Vec3) : Vec3 :=
  ⟨u.x + v.x, u.y + v.y, u.z + v.z⟩

/-- `(1 - a) * u + a * v`, the interpolation expression of line 306. -/
def lerp (a : ℚ) (u v : Vec3) : Vec3 :=
  Vec3.add (Vec3.smul (1 - a) u) (Vec3.smul a v)

/-- `steps = int(total_time / dt)` (line 276).  Python `int` truncates
toward zero; for the nonnegative quotients of every claim this is the floor,
and for negative quotients both truncation and floor yield an empty
`range`, so `Int.toNat ∘ Int.floor` is a faithful embedding. -/
def stepCount (totalDuration stepSize : ℚ) : ℕ :=
  (⌊totalDuration / stepSize⌋).toNat

/-- All quantities bound by one iteration of the loop body
(lines 283–306), including the exponential quantities that are computed
but never used for the emitted position. -/
structure LoopStep where
  t : ℚ
  decay_t2 : ℚ
  M_transverse_t : Vec3
  Mz_t : ℚ
  alpha : ℚ
  current_pos : Vec3
deriving DecidableEq, Repr

/-- One iteration of the loop body of `show_relaxation_enhanced`
(lines 283–306).  `ex` abstracts `np.exp`; `initial_M_transverse` is
`[0, M0, 0]` (line 279) and `Mz_equilibrium` is `endVector.z`
(line 291, `self.equilibrium_end[2]`). -/
def loopBody (ex : ℚ → ℚ) (T1 T2 M0 : ℚ) (startVector endVector : Vec3)
    (totalDuration stepSize : ℚ) (i : ℕ) : LoopStep :=
  let t : ℚ := ((i : ℚ) + 1) * stepSize
  let decay_t2 : ℚ := ex (-t / T2)
  let M_transverse_t : Vec3 := Vec3.smul decay_t2 ⟨0, M0, 0⟩
  let Mz_t : ℚ := endVector.z * (1 - ex (-t / T1))
  let alpha : ℚ := t / totalDuration
  let current_pos : Vec3 := lerp alpha startVector endVector
  ⟨t, decay_t2, M_transverse_t, Mz_t, alpha, current_pos⟩

/-- The trace of all loop iterations (lines 282–323). -/
def trajectoryTrace (ex : ℚ → ℚ) (T1 T2 M0 : ℚ) (startVector endVector : Vec3)
    (totalDuration stepSize : ℚ) : List LoopStep :=
  (List.range (stepCount totalDuration stepSize)).map
    (loopBody ex T1 T2 M0 startVector endVector totalDuration stepSize)

/-- The loop-generated samples: each iteration emits `(current_pos, t)`
via `update_parameter_display(current_pos..., t)` and the arrow redraw
(lines 308–323). -/
def emittedLoop (ex : ℚ → ℚ) (T1 T2 M0 : ℚ) (startVector endVector : Vec3)
    (totalDuration stepSize : ℚ) : List (Vec3 × ℚ) :=
  (trajectoryTrace ex T1 T2 M0 startVector endVector totalDuration stepSize).map
    (fun s => (s.current_pos, s.t))

/-- The full emitted sequence: the loop samples followed by the corrective
final sample `(equilibrium_end, total_time)` (lines 325–335). -/
def sampler (ex : ℚ → ℚ) (T1 T2 M0 : ℚ) (startVector endVector : Vec3)
    (totalDuration stepSize : ℚ) : List (Vec3 × ℚ) :=
  emittedLoop ex T1 T2 M0 startVector endVector totalDuration stepSize
    ++ [(endVector, totalDuration)]

/-- `equilibrium_end` of `demonstrate_bloch_physics` (lines 158–164):
`[0.2 * np.sin(initial_tilt), 0, self.M0 * np.cos(initial_tilt)]`.
`sin` and `cos` abstract `np.sin` and `np.cos`. -/
def equilibrium_end (sin cos : ℚ → ℚ) (M0 tilt : ℚ) : Vec3 :=
  ⟨0.2 * sin tilt, 0, M0 * cos tilt⟩

/-- Modelled from the spec: "**EquilibriumVector**: derived 3-vector
(Mx0, My0, Mz0) = (M0·sin(tilt), 0, M0·cos(tilt))" — the formula the spec
states, to be compared with the source's `equilibrium_end`. -/
def equilibriumSpec (sin cos : ℚ → ℚ) (M0 tilt : ℚ) : Vec3 :=
  ⟨M0 * sin tilt, 0, M0 * cos tilt⟩

/-- The interpolation factor behind the j-th emitted sample (0-based):
loop samples use α = t / totalDuration and the corrective sample is pinned
at the second endpoint, i.e. factor 1. -/
def alphaAt (td ss : ℚ) (j : ℕ) : ℚ :=
  if j < stepCount td ss then (((j : ℚ) + 1) * ss) / td else 1

/-- A concrete stand-in for the external sine routine: the value of
`np.sin` at the configured tilt of 15 degrees, to four decimal places
(`np.sin(15 * DEGREES) = 0.2588...`). -/
def sinOracle : ℚ → ℚ := fun _ => 0.2588

/-- A concrete stand-in for the external cosine routine at 15 degrees
(`np.cos(15 * DEGREES) = 0.9659...`). -/
def cosOracle : ℚ → ℚ := fun _ => 0.9659

/-- A rational stand-in for the configured tilt `15 * DEGREES`
(`DEGREES = pi / 180`, approximated). -/
def tiltValue : ℚ := 15 * 0.0174533

/-- IEEE-754 binary64 rounding (round to nearest, ties to even) at ulp
`2^(-n)`: every finite double is a rational, and an operation on doubles
returns the exact rational result rounded to the nearest multiple of the
ulp of its binade, ties going to the even multiple.  `n` must be the scale
of `q`'s binade, i.e. `q * 2^n ∈ [2^52, 2^53)` (53-bit significand); the
scale arguments used below are validated in `roundScale_valid`. -/
def roundBinary64 (n : ℕ) (q : ℚ) : ℚ :=
  (((if q * 2^n - (⌊q * 2^n⌋ : ℚ) < 1/2 then ⌊q * 2^n⌋
     else if (1 : ℚ)/2 < q * 2^n - (⌊q * 2^n⌋ : ℚ) then ⌊q * 2^n⌋ + 1
     else if ⌊q * 2^n⌋ % 2 = 0 then ⌊q * 2^n⌋ else ⌊q * 2^n⌋ + 1) : ℤ) : ℚ) / 2^n

/-- `steps = int(total_time / dt)` (line 276) as the program executes it at
the inputs totalDuration 0.3, stepSize 0.05, under the IEEE binary64
arithmetic of Python floats: the literals denote their binary64 roundings
(0.3 has ulp 2^(-54), 0.05 has ulp 2^(-57)), the division is correctly
rounded (the quotient lies in [4, 8), ulp 2^(-50)), and `int` truncates
(= floor, the quotient being positive). -/
def stepCountIEEE : ℕ :=
  (⌊roundBinary64 50 (roundBinary64 54 (3/10) / roundBinary64 57 (1/20))⌋).toNat

section Helpers

/-- The loop-generated samples do not depend on `ex`, `T1`, `T2`, `M0`:
they are the linear-interpolation samples at times `(i + 1) * stepSize`. -/
theorem emittedLoop_eq (ex : ℚ → ℚ) (T1 T2 M0 : ℚ) (sV eV : Vec3) (td ss : ℚ) :
    emittedLoop ex T1 T2 M0 sV eV td ss =
      (List.range (stepCount td ss)).map
        (fun (i : ℕ) => (lerp ((((i : ℚ) + 1) * ss) / td) sV eV, ((i : ℚ) + 1) * ss)) := by
  unfold emittedLoop trajectoryTrace
  rw [List.map_map]
  rfl

/-- The full emitted sequence in closed form. -/
theorem sampler_eq (ex : ℚ → ℚ) (T1 T2 M0 : ℚ) (sV eV : Vec3) (td ss : ℚ) :
    sampler ex T1 T2 M0 sV eV td ss =
      (List.range (stepCount td ss)).map
        (fun (i : ℕ) => (lerp ((((i : ℚ) + 1) * ss) / td) sV eV, ((i : ℚ) + 1) * ss))
      ++ [(eV, td)] := by
  unfold sampler
  rw [emittedLoop_eq]

/-- The last emitted sample is the corrective one. -/
theorem sampler_getLast (ex : ℚ → ℚ) (T1 T2 M0 : ℚ) (sV eV : Vec3) (td ss : ℚ) :
    (sampler ex T1 T2 M0 sV eV td ss).getLast? = some (eV, td) := by
  unfold sampler
  rw [List.getLast?_concat]

/-- A loop index below `stepCount` gives a loop time of at most `totalDuration`. -/
theorem loopTime_le {td ss : ℚ} (hss : 0 < ss) {i : ℕ} (hi : i < stepCount td ss) :
    ((i : ℚ) + 1) * ss ≤ td := by
  have h1 : (i : ℤ) < ⌊td / ss⌋ := Int.lt_toNat.mp hi
  have h2 : ((i : ℤ) + 1) ≤ ⌊td / ss⌋ := by omega
  have h3 : (((i : ℤ) + 1 : ℤ) : ℚ) ≤ td / ss := Int.le_floor.mp h2
  have h4 : ((i : ℚ) + 1) ≤ td / ss := by push_cast at h3; exact h3
  exact (le_div_iff₀ hss).mp h4

/-- Every loop time is at least `stepSize`. -/
theorem stepSize_le_loopTime {ss : ℚ} (hss : 0 < ss) (i : ℕ) :
    ss ≤ ((i : ℚ) + 1) * ss := by
  have h1 : (1 : ℚ) ≤ (i : ℚ) + 1 := by
    have := Nat.cast_nonneg (α := ℚ) i
    linarith
  exact le_mul_of_one_le_left hss.le h1

/-- `stepCount` for an exact multiple of the step size. -/
theorem stepCount_natMul {ss : ℚ} (hss : 0 < ss) (k : ℕ) :
    stepCount ((k : ℚ) * ss) ss = k := by
  unfold stepCount
  rw [mul_div_assoc, div_self hss.ne', mul_one, Int.floor_natCast, Int.toNat_natCast]

/-- `stepCount` vanishes when the step exceeds the duration. -/
theorem stepCount_eq_zero {td ss : ℚ} (hss : 0 < ss) (h : td < ss) :
    stepCount td ss = 0 := by
  unfold stepCount
  have h1 : td / ss < 1 := (div_lt_one hss).mpr h
  have h2 : ⌊td / ss⌋ < 1 := Int.floor_lt.mpr (by exact_mod_cast h1)
  rw [Int.toNat_eq_zero]
  omega

/-- `stepCount` is at least one when the step fits into the duration. -/
theorem one_le_stepCount {td ss : ℚ} (hss : 0 < ss) (hle : ss ≤ td) :
    1 ≤ stepCount td ss := by
  have h1 : (1 : ℚ) ≤ td / ss := (one_le_div hss).mpr hle
  have h2 : (1 : ℤ) ≤ ⌊td / ss⌋ := Int.le_floor.mpr (by exact_mod_cast h1)
  unfold stepCount
  omega

/-- Interpolating at factor one lands exactly on the second endpoint. -/
theorem lerp_one (u v : Vec3) : lerp 1 u v = v := by
  cases v
  simp [lerp, Vec3.smul, Vec3.add]

/-- The scalar interpolation `(1 - a) * s + a * e` is monotone in `a`
when `s ≤ e`, and antitone when `e ≤ s`. -/
theorem lerp_scalar_mono {s e a b : ℚ} (hab : a ≤ b) (hse : s ≤ e) :
    (1 - a) * s + a * e ≤ (1 - b) * s + b * e := by nlinarith

/-- The scalar interpolation is antitone in `a` when `e ≤ s`. -/
theorem lerp_scalar_anti {s e a b : ℚ} (hab : a ≤ b) (hse : e ≤ s) :
    (1 - b) * s + b * e ≤ (1 - a) * s + a * e := by nlinarith

/-- The x-coordinate of an interpolated vector. -/
theorem lerp_x (a : ℚ) (u v : Vec3) : (lerp a u v).x = (1 - a) * u.x + a * v.x := rfl

/-- The y-coordinate of an interpolated vector. -/
theorem lerp_y (a : ℚ) (u v : Vec3) : (lerp a u v).y = (1 - a) * u.y + a * v.y := rfl

/-- The z-coordinate of an interpolated vector. -/
theorem lerp_z (a : ℚ) (u v : Vec3) : (lerp a u v).z = (1 - a) * u.z + a * v.z := rfl

/-- The scalar interpolation stays between the endpoints for `a ∈ [0, 1]`. -/
theorem lerp_scalar_bounds {s e a : ℚ} (h0 : 0 ≤ a) (h1 : a ≤ 1) :
    min s e ≤ (1 - a) * s + a * e ∧ (1 - a) * s + a * e ≤ max s e := by
  rcases le_total s e with h | h
  · rw [min_eq_left h, max_eq_right h]
    constructor <;> nlinarith
  · rw [min_eq_right h, max_eq_left h]
    constructor <;> nlinarith

/-- The scale arguments fed to `roundBinary64` below match the binades of
the rounded quantities: in each case the scaled value lies in
`[2^52, 2^53)`, so the chosen ulp is the binary64 ulp of that quantity
(0.3 and 6·fl(0.05) have ulp 2^(-54); 0.05 and 1·fl(0.05) have 2^(-57);
2·fl(0.05) has 2^(-56); 3·fl(0.05) and 4·fl(0.05) have 2^(-55);
5·fl(0.05) has 2^(-54); fl(0.3)/fl(0.05) ∈ [4, 8) has 2^(-50)). -/
theorem roundScale_valid :
    ((2:ℚ)^52 ≤ (3/10) * 2^54 ∧ (3/10 : ℚ) * 2^54 < 2^53) ∧
    ((2:ℚ)^52 ≤ (1/20) * 2^57 ∧ (1/20 : ℚ) * 2^57 < 2^53) ∧
    ((2:ℚ)^52 ≤ ((5404319552844595/2^54) / (7205759403792794/2^57)) * 2^50 ∧
      ((5404319552844595/2^54 : ℚ) / (7205759403792794/2^57)) * 2^50 < 2^53) ∧
    ((2:ℚ)^52 ≤ (1 * (7205759403792794/2^57)) * 2^57 ∧
      (1 * (7205759403792794/2^57 : ℚ)) * 2^57 < 2^53) ∧
    ((2:ℚ)^52 ≤ (2 * (7205759403792794/2^57)) * 2^56 ∧
      (2 * (7205759403792794/2^57 : ℚ)) * 2^56 < 2^53) ∧
    ((2:ℚ)^52 ≤ (3 * (7205759403792794/2^57)) * 2^55 ∧
      (3 * (7205759403792794/2^57 : ℚ)) * 2^55 < 2^53) ∧
    ((2:ℚ)^52 ≤ (4 * (7205759403792794/2^57)) * 2^55 ∧
      (4 * (7205759403792794/2^57 : ℚ)) * 2^55 < 2^53) ∧
    ((2:ℚ)^52 ≤ (5 * (7205759403792794/2^57)) * 2^54 ∧
      (5 * (7205759403792794/2^57 : ℚ)) * 2^54 < 2^53) ∧
    ((2:ℚ)^52 ≤ (6 * (7205759403792794/2^57)) * 2^54 ∧
      (6 * (7205759403792794/2^57 : ℚ)) * 2^54 < 2^53) := by
  refine ⟨⟨?_, ?_⟩, ⟨?_, ?_⟩, ⟨?_, ?_⟩, ⟨?_, ?_⟩, ⟨?_, ?_⟩, ⟨?_, ?_⟩, ⟨?_, ?_⟩,
    ⟨?_, ?_⟩, ⟨?_, ?_⟩⟩ <;> norm_num

/-- The binary64 value of the literal 0.3: 0.3·2^54 = 5404319552844595.2
rounds down. -/
theorem round_03 : roundBinary64 54 (3/10) = 5404319552844595 / 2^54 := by
  unfold roundBinary64
  have hf : ⌊(3/10 : ℚ) * 2^54⌋ = 5404319552844595 := by norm_num
  rw [hf]
  split_ifs with h1 h2 h3
  · push_cast; norm_num
  · exfalso; apply h1; push_cast; norm_num
  · exfalso; apply h1; push_cast; norm_num
  · exfalso; apply h1; push_cast; norm_num

/-- The binary64 value of the literal 0.05: 0.05·2^57 = 7205759403792793.6
rounds up. -/
theorem round_005 : roundBinary64 57 (1/20) = 7205759403792794 / 2^57 := by
  unfold roundBinary64
  have hf : ⌊(1/20 : ℚ) * 2^57⌋ = 7205759403792793 := by norm_num
  rw [hf]
  split_ifs with h1 h2 h3
  · exfalso; push_cast at h1; norm_num at h1
  · push_cast; norm_num
  · exfalso; apply h2; push_cast; norm_num
  · exfalso; apply h2; push_cast; norm_num

/-- The binary64 quotient fl(0.3)/fl(0.05): the exact quotient is
6 − 2/3602879701896397, whose scaled value 6755399441055743.375 rounds
down, giving 6 − 2^(-50) (the double printed 5.999999999999999). -/
theorem round_quot :
    roundBinary64 50 ((5404319552844595/2^54 : ℚ) / (7205759403792794/2^57))
      = 6755399441055743 / 2^50 := by
  unfold roundBinary64
  have hf : ⌊((5404319552844595/2^54 : ℚ) / (7205759403792794/2^57)) * 2^50⌋
      = 6755399441055743 := by norm_num
  rw [hf]
  split_ifs with h1 h2 h3
  · push_cast; norm_num
  · exfalso; apply h1; push_cast; norm_num
  · exfalso; apply h1; push_cast; norm_num
  · exfalso; apply h1; push_cast; norm_num

/-- The binary64 product 6·fl(0.05): the scaled value 5404319552844595.5 is
a tie and the low multiple is odd, so it rounds up — one ulp above fl(0.3)
(the double printed 0.30000000000000004). -/
theorem round_6dt :
    roundBinary64 54 (6 * (7205759403792794/2^57 : ℚ))
      = 5404319552844596 / 2^54 := by
  unfold roundBinary64
  have hf : ⌊(6 * (7205759403792794/2^57 : ℚ)) * 2^54⌋ = 5404319552844595 := by
    norm_num
  rw [hf]
  split_ifs with h1 h2 h3
  · exfalso; push_cast at h1; norm_num at h1
  · exfalso; push_cast at h2; norm_num at h2
  · omega
  · push_cast; norm_num

/-- The binary64 loop times at stepSize 0.05: fl((i+1)·fl(0.05)) for
i = 0..4 — the products for i = 0, 1, 3 are exact, 3·fl(0.05) is a tie
rounding up, and 5·fl(0.05) rounds to exactly 1/4. -/
theorem round_loop_times :
    roundBinary64 57 (1 * (7205759403792794/2^57 : ℚ)) = 7205759403792794 / 2^57 ∧
    roundBinary64 56 (2 * (7205759403792794/2^57 : ℚ)) = 7205759403792794 / 2^56 ∧
    roundBinary64 55 (3 * (7205759403792794/2^57 : ℚ)) = 5404319552844596 / 2^55 ∧
    roundBinary64 55 (4 * (7205759403792794/2^57 : ℚ)) = 7205759403792794 / 2^55 ∧
    roundBinary64 54 (5 * (7205759403792794/2^57 : ℚ)) = 4503599627370496 / 2^54 := by
  refine ⟨?_, ?_, ?_, ?_, ?_⟩ <;> unfold roundBinary64
  · have hf : ⌊(1 * (7205759403792794/2^57 : ℚ)) * 2^57⌋ = 7205759403792794 := by
      norm_num
    rw [hf]
    split_ifs with h1 h2 h3
    · push_cast; norm_num
    · exfalso; apply h1; push_cast; norm_num
    · exfalso; apply h1; push_cast; norm_num
    · exfalso; apply h1; push_cast; norm_num
  · have hf : ⌊(2 * (7205759403792794/2^57 : ℚ)) * 2^56⌋ = 7205759403792794 := by
      norm_num
    rw [hf]
    split_ifs with h1 h2 h3
    · push_cast; norm_num
    · exfalso; apply h1; push_cast; norm_num
    · exfalso; apply h1; push_cast; norm_num
    · exfalso; apply h1; push_cast; norm_num
  · have hf : ⌊(3 * (7205759403792794/2^57 : ℚ)) * 2^55⌋ = 5404319552844595 := by
      norm_num
    rw [hf]
    split_ifs with h1 h2 h3
    · exfalso; push_cast at h1; norm_num at h1
    · exfalso; push_cast at h2; norm_num at h2
    · omega
    · push_cast; norm_num
  · have hf : ⌊(4 * (7205759403792794/2^57 : ℚ)) * 2^55⌋ = 7205759403792794 := by
      norm_num
    rw [hf]
    split_ifs with h1 h2 h3
    · push_cast; norm_num
    · exfalso; apply h1; push_cast; norm_num
    · exfalso; apply h1; push_cast; norm_num
    · exfalso; apply h1; push_cast; norm_num
  · have hf : ⌊(5 * (7205759403792794/2^57 : ℚ)) * 2^54⌋ = 4503599627370496 := by
      norm_num
    rw [hf]
    split_ifs with h1 h2 h3
    · push_cast; norm_num
    · exfalso; apply h1; push_cast; norm_num
    · exfalso; apply h1; push_cast; norm_num
    · exfalso; apply h1; push_cast; norm_num

/-- The program's step count at (0.3, 0.05) is 5: the binary64 quotient
6 − 2^(-50) truncates to 5. -/
theorem stepCountIEEE_eq : stepCountIEEE = 5 := by
  unfold stepCountIEEE
  rw [round_03, round_005, round_quot]
  have hf : ⌊(6755399441055743/2^50 : ℚ)⌋ = 5 := by norm_num
  rw [hf]
  rfl

-- scratch checks
example : stepCount 0.3 0.07 = 4 := by unfold stepCount; norm_num; try rfl
example : stepCount 0 1 = 0 := by unfold stepCount; norm_num; try rfl
example : stepCount 0.3 0.05 = 6 := by unfold stepCount; norm_num; try rfl

example :
    emittedLoop (fun _ => 0) 1 (1/10) 1 ⟨0, 1, 0⟩ ⟨0.052, 0, 0.966⟩ 0.3 0.05
      = [(lerp (1/6) ⟨0, 1, 0⟩ ⟨0.052, 0, 0.966⟩, 0.05),
         (lerp (2/6) ⟨0, 1, 0⟩ ⟨0.052, 0, 0.966⟩, 0.1),
         (lerp (3/6) ⟨0, 1, 0⟩ ⟨0.052, 0, 0.966⟩, 0.15),
         (lerp (4/6) ⟨0, 1, 0⟩ ⟨0.052, 0, 0.966⟩, 0.2),
         (lerp (5/6) ⟨0, 1, 0⟩ ⟨0.052, 0, 0.966⟩, 0.25),
         (⟨0.052, 0, 0.966⟩, 0.3)] := by
  rw [emittedLoop_eq]
  have h6 : stepCount 0.3 0.05 = 6 := by unfold stepCount; norm_num; try rfl; try rfl
  rw [h6]
  simp [List.range_succ, lerp, Vec3.smul, Vec3.add, Vec3.mk.injEq]
  norm_num

end Helpers

/-- Claim C1: for every startVector, endVector, totalDuration > 0 and
stepSize > 0 with stepSize ≤ totalDuration, the loop-generated sequence is
exactly: for step index i = 1..stepCount with
stepCount = floor(totalDuration / stepSize), the i-th sample has time
t = i·stepSize and position (1 − α)·startVector + α·endVector where
α = t / totalDuration — plain linear interpolation, not exponential
(stated 0-based: the sample at index i is at time (i + 1)·stepSize). -/
theorem C1_loop_linear_interpolation (ex : ℚ → ℚ) (T1 T2 M0 : ℚ)
    (sV eV : Vec3) (td ss : ℚ) (htd : 0 < td) (hss : 0 < ss) (hle : ss ≤ td) :
    (emittedLoop ex T1 T2 M0 sV eV td ss).length = stepCount td ss ∧
    ∀ i, i < stepCount td ss →
      (emittedLoop ex T1 T2 M0 sV eV td ss).get? i =
        some (lerp ((((i : ℚ) + 1) * ss) / td) sV eV, ((i : ℚ) + 1) * ss) := by
  rw [emittedLoop_eq]
  constructor
  · simp
  · intro i hi
    rw [List.get?_map, List.get?_range hi]
    rfl

/-- Witness for C1 at startVector (0,1,0), endVector (0,0,1),
totalDuration 1, stepSize 1. -/
theorem C1_loop_linear_interpolation_witness :
    (0:ℚ) < 1 ∧ (0:ℚ) < 1 ∧ (1:ℚ) ≤ 1 ∧
    ((emittedLoop (fun _ => 0) 1 (1/10) 1 ⟨0,1,0⟩ ⟨0,0,1⟩ 1 1).length = stepCount 1 1 ∧
      ∀ i, i < stepCount 1 1 →
        (emittedLoop (fun _ => 0) 1 (1/10) 1 ⟨0,1,0⟩ ⟨0,0,1⟩ 1 1).get? i =
          some (lerp ((((i : ℚ) + 1) * 1) / 1) ⟨0,1,0⟩ ⟨0,0,1⟩, ((i : ℚ) + 1) * 1)) :=
  ⟨by norm_num, by norm_num, le_refl 1,
    C1_loop_linear_interpolation (fun _ => 0) 1 (1/10) 1 ⟨0,1,0⟩ ⟨0,0,1⟩ 1 1
      (by norm_num) (by norm_num) (le_refl 1)⟩

/-- Claim C2: for every valid input (totalDuration > 0, stepSize > 0) the
final emitted sample is exactly (endVector, totalDuration), regardless of
divisibility; in particular for totalDuration = 0.3 and stepSize = 0.07 the
loop generates 4 samples at times 0.07, 0.14, 0.21, 0.28 followed by one
corrective sample at time 0.30 pinned to endVector. -/
theorem C2_final_sample_pinned (ex : ℚ → ℚ) (T1 T2 M0 : ℚ) (sV eV : Vec3)
    (td ss : ℚ) (htd : 0 < td) (hss : 0 < ss) :
    (sampler ex T1 T2 M0 sV eV td ss).getLast? = some (eV, td) ∧
    (emittedLoop ex T1 T2 M0 sV eV (0.3 : ℚ) (0.07 : ℚ)).map Prod.snd
        = [0.07, 0.14, 0.21, 0.28] ∧
    (sampler ex T1 T2 M0 sV eV (0.3 : ℚ) (0.07 : ℚ)).getLast? = some (eV, 0.3) := by
  refine ⟨sampler_getLast ex T1 T2 M0 sV eV td ss, ?_,
    sampler_getLast ex T1 T2 M0 sV eV 0.3 0.07⟩
  rw [emittedLoop_eq]
  have h4 : stepCount 0.3 0.07 = 4 := by unfold stepCount; norm_num; try rfl
  rw [h4]
  simp [List.range_succ]
  norm_num

/-- Witness for C2 at startVector (0,1,0), endVector (0,0,1),
totalDuration 0.3, stepSize 0.07. -/
theorem C2_final_sample_pinned_witness :
    (0:ℚ) < 0.3 ∧ (0:ℚ) < 0.07 ∧
    ((sampler (fun _ => 0) 1 (1/10) 1 ⟨0,1,0⟩ ⟨0,0,1⟩ 0.3 0.07).getLast?
        = some (⟨0,0,1⟩, 0.3) ∧
      (emittedLoop (fun _ => 0) 1 (1/10) 1 ⟨0,1,0⟩ ⟨0,0,1⟩ (0.3 : ℚ) (0.07 : ℚ)).map Prod.snd
        = [0.07, 0.14, 0.21, 0.28] ∧
      (sampler (fun _ => 0) 1 (1/10) 1 ⟨0,1,0⟩ ⟨0,0,1⟩ (0.3 : ℚ) (0.07 : ℚ)).getLast?
        = some (⟨0,0,1⟩, 0.3)) :=
  ⟨by norm_num, by norm_num,
    C2_final_sample_pinned (fun _ => 0) 1 (1/10) 1 ⟨0,1,0⟩ ⟨0,0,1⟩ 0.3 0.07
      (by norm_num) (by norm_num)⟩

/-- Claim C3: for every totalDuration > 0 and stepSize > 0, the total number
of emitted samples (loop samples plus the corrective final sample) equals
floor(totalDuration/stepSize) + 1; when totalDuration = stepSize the
sequence has exactly 2 samples. -/
theorem C3_sequence_length (ex : ℚ → ℚ) (T1 T2 M0 : ℚ) (sV eV : Vec3)
    (td ss : ℚ) (htd : 0 < td) (hss : 0 < ss) :
    (sampler ex T1 T2 M0 sV eV td ss).length = (⌊td / ss⌋).toNat + 1 ∧
    (ss = td → (sampler ex T1 T2 M0 sV eV td ss).length = 2) := by
  have hlen : (sampler ex T1 T2 M0 sV eV td ss).length = stepCount td ss + 1 := by
    rw [sampler_eq]; simp
  refine ⟨by rw [hlen]; rfl, fun h => ?_⟩
  subst h
  have h1 : stepCount ss ss = 1 := by
    unfold stepCount
    rw [div_self hss.ne']
    norm_num
  rw [hlen, h1]

/-- Witness for C3 at totalDuration = stepSize = 1. -/
theorem C3_sequence_length_witness :
    (0:ℚ) < 1 ∧ (0:ℚ) < 1 ∧
    ((sampler (fun _ => 0) 1 (1/10) 1 ⟨0,1,0⟩ ⟨0,0,1⟩ 1 1).length
        = (⌊(1:ℚ) / 1⌋).toNat + 1 ∧
      ((1:ℚ) = 1 → (sampler (fun _ => 0) 1 (1/10) 1 ⟨0,1,0⟩ ⟨0,0,1⟩ 1 1).length = 2)) :=
  ⟨by norm_num, by norm_num,
    C3_sequence_length (fun _ => 0) 1 (1/10) 1 ⟨0,1,0⟩ ⟨0,0,1⟩ 1 1
      (by norm_num) (by norm_num)⟩

/-- Claim C4: the emitted samples are independent of T1 and T2 — two runs
agreeing on startVector, endVector, totalDuration and stepSize but with any
two pairs of positive T1, T2 values produce identical output sequences (the
per-step exponential factors are computed but never influence the emitted
position). -/
theorem C4_T1_T2_independence (ex : ℚ → ℚ) (T1 T2 T1' T2' M0 : ℚ)
    (h1 : 0 < T1) (h2 : 0 < T2) (h1' : 0 < T1') (h2' : 0 < T2')
    (sV eV : Vec3) (td ss : ℚ) :
    sampler ex T1 T2 M0 sV eV td ss = sampler ex T1' T2' M0 sV eV td ss := by
  rw [sampler_eq, sampler_eq]

/-- Claim C5 counterexample: with the configured equilibrium magnitude
M0 = 1.0 and tilt 15 degrees, the source's equilibrium vector is NOT
(M0·sin(tilt), 0, M0·cos(tilt)): its x-component is 0.2·sin(tilt)
(line 160, `0.2 * np.sin(initial_tilt)`), which differs from
M0·sin(tilt) = 1.0·sin(tilt) since sin(15°) ≈ 0.2588 ≠ 0. -/
theorem C5_equilibrium_vector_counterexample :
    equilibrium_end sinOracle cosOracle 1 tiltValue
      ≠ equilibriumSpec sinOracle cosOracle 1 tiltValue := by
  intro h
  have hx := congrArg Vec3.x h
  unfold equilibrium_end equilibriumSpec sinOracle cosOracle at hx
  norm_num at hx

/-- Claim C5 (amended): the equilibrium vector used as the trajectory's
endVector equals (0.2·sin(tilt), 0, M0·cos(tilt)) — the x-component uses the
hard-coded coefficient 0.2, not the equilibrium magnitude M0 — and it agrees
with the spec's (M0·sin(tilt), 0, M0·cos(tilt)) exactly when
M0·sin(tilt) = 0.2·sin(tilt); being a pure function of its inputs, it is
computed once and never changed for the rest of the run. -/
theorem C5_equilibrium_vector (sin cos : ℚ → ℚ) (M0 tilt : ℚ) :
    equilibrium_end sin cos M0 tilt = ⟨0.2 * sin tilt, 0, M0 * cos tilt⟩ ∧
    (equilibrium_end sin cos M0 tilt = equilibriumSpec sin cos M0 tilt ↔
      M0 * sin tilt = 0.2 * sin tilt) := by
  refine ⟨rfl, ?_, ?_⟩
  · intro h
    have hx := congrArg Vec3.x h
    unfold equilibrium_end equilibriumSpec at hx
    exact hx.symm
  · intro h
    unfold equilibrium_end equilibriumSpec
    rw [Vec3.mk.injEq]
    exact ⟨h.symm, rfl, rfl⟩

/-- Claim C6: for totalDuration > 0 and 0 < stepSize ≤ totalDuration, the
loop-generated times are strictly increasing and each lies in the closed
interval [stepSize, totalDuration], while the corrective final sample's time
equals totalDuration exactly (the corrective sample — a duplicate of time
totalDuration when stepSize divides totalDuration — being the claim's stated
exception to strictness). -/
theorem C6_times_increasing_bounded (ex : ℚ → ℚ) (T1 T2 M0 : ℚ) (sV eV : Vec3)
    (td ss : ℚ) (htd : 0 < td) (hss : 0 < ss) (hle : ss ≤ td) :
    List.Pairwise (fun a b => a < b)
        ((emittedLoop ex T1 T2 M0 sV eV td ss).map Prod.snd) ∧
    (∀ t ∈ (emittedLoop ex T1 T2 M0 sV eV td ss).map Prod.snd,
        ss ≤ t ∧ t ≤ td) ∧
    (sampler ex T1 T2 M0 sV eV td ss).getLast? = some (eV, td) := by
  rw [emittedLoop_eq, List.map_map]
  refine ⟨?_, ?_, sampler_getLast ex T1 T2 M0 sV eV td ss⟩
  · rw [List.pairwise_map]
    apply (List.pairwise_lt_range _).imp
    intro a b hab
    show ((a : ℚ) + 1) * ss < ((b : ℚ) + 1) * ss
    have hc : (a : ℚ) + 1 < (b : ℚ) + 1 := by exact_mod_cast Nat.succ_lt_succ hab
    exact mul_lt_mul_of_pos_right hc hss
  · intro t ht
    simp only [List.mem_map, List.mem_range, Function.comp_apply] at ht
    obtain ⟨i, hi, rfl⟩ := ht
    exact ⟨stepSize_le_loopTime hss i, loopTime_le hss hi⟩

/-- Witness for C6 at totalDuration 0.3, stepSize 0.07. -/
theorem C6_times_increasing_bounded_witness :
    (0:ℚ) < 0.3 ∧ (0:ℚ) < 0.07 ∧ (0.07:ℚ) ≤ 0.3 ∧
    (List.Pairwise (fun a b => a < b)
        ((emittedLoop (fun _ => 0) 1 (1/10) 1 ⟨0,1,0⟩ ⟨0,0,1⟩ 0.3 0.07).map Prod.snd) ∧
      (∀ t ∈ (emittedLoop (fun _ => 0) 1 (1/10) 1 ⟨0,1,0⟩ ⟨0,0,1⟩ 0.3 0.07).map Prod.snd,
          (0.07:ℚ) ≤ t ∧ t ≤ 0.3) ∧
      (sampler (fun _ => 0) 1 (1/10) 1 ⟨0,1,0⟩ ⟨0,0,1⟩ 0.3 0.07).getLast?
        = some (⟨0,0,1⟩, 0.3)) :=
  ⟨by norm_num, by norm_num, by norm_num,
    C6_times_increasing_bounded (fun _ => 0) 1 (1/10) 1 ⟨0,1,0⟩ ⟨0,0,1⟩ 0.3 0.07
      (by norm_num) (by norm_num) (by norm_num)⟩

/-- Witness for C4 with (T1, T2) = (1, 1/10) against (T1, T2) = (2, 3). -/
theorem C4_T1_T2_independence_witness :
    (0:ℚ) < 1 ∧ (0:ℚ) < 1/10 ∧ (0:ℚ) < 2 ∧ (0:ℚ) < 3 ∧
    sampler (fun _ => 0) 1 (1/10) 1 ⟨0,1,0⟩ ⟨0,0,1⟩ 0.3 0.07
      = sampler (fun _ => 0) 2 3 1 ⟨0,1,0⟩ ⟨0,0,1⟩ 0.3 0.07 :=
  ⟨by norm_num, by norm_num, by norm_num, by norm_num,
    C4_T1_T2_independence (fun _ => 0) 1 (1/10) 2 3 1
      (by norm_num) (by norm_num) (by norm_num) (by norm_num) ⟨0,1,0⟩ ⟨0,0,1⟩ 0.3 0.07⟩

/-- Claim C7 counterexample: the claim is false of the program.  Under the
IEEE binary64 arithmetic the program actually executes, `int(0.3 / 0.05)`
at line 276 evaluates to 5, not 6: the binary64 quotient of the rounded
literals is 6 − 2^(-50) (printed 5.999999999999999) and `int` truncates it
to 5.  So at the claim's inputs the loop generates 5 samples, not the
claimed 6, no loop sample lands at t = 0.30, and the corrective final
sample IS needed to reach endVector; moreover even a 6th step would not
land exactly, since fl(6·fl(0.05)) is one ulp above fl(0.3). -/
theorem C7_exact_boundary_landing_counterexample :
    stepCountIEEE = 5 ∧
    stepCountIEEE ≠ stepCount 0.3 0.05 ∧
    roundBinary64 50 (roundBinary64 54 (3/10) / roundBinary64 57 (1/20))
      = 6 - 1/2^50 ∧
    roundBinary64 54 (6 * roundBinary64 57 (1/20)) ≠ roundBinary64 54 (3/10) := by
  have h6 : stepCount 0.3 0.05 = 6 := by unfold stepCount; norm_num; try rfl
  refine ⟨stepCountIEEE_eq, ?_, ?_, ?_⟩
  · rw [stepCountIEEE_eq, h6]
    norm_num
  · rw [round_03, round_005, round_quot]
    norm_num
  · rw [round_005, round_6dt, round_03]
    norm_num

/-- Claim C7 (amended): for startVector (0,1,0), endVector (0.052,0,0.966),
totalDuration 0.3, stepSize 0.05, the program's loop generates only 5
samples: under the IEEE binary64 semantics of Python floats,
int(0.3/0.05) truncates the rounded quotient 6 − 2^(-50) to 5, every
binary64 loop time fl((i+1)·fl(0.05)), i = 0..4, is strictly below
fl(0.3), so no loop sample lands at t = 0.30 and the corrective final
sample is the sample that reaches endVector at t = 0.30 (it is still
emitted last).  Only under the spec's exact real-arithmetic reading of the
algorithm does the loop generate 6 samples with the 6th landing exactly on
endVector at t = 0.30. -/
theorem C7_float_step_count (ex : ℚ → ℚ) (T1 T2 M0 : ℚ) :
    stepCountIEEE = 5 ∧
    roundBinary64 57 (1 * roundBinary64 57 (1/20)) < roundBinary64 54 (3/10) ∧
    roundBinary64 56 (2 * roundBinary64 57 (1/20)) < roundBinary64 54 (3/10) ∧
    roundBinary64 55 (3 * roundBinary64 57 (1/20)) < roundBinary64 54 (3/10) ∧
    roundBinary64 55 (4 * roundBinary64 57 (1/20)) < roundBinary64 54 (3/10) ∧
    roundBinary64 54 (5 * roundBinary64 57 (1/20)) < roundBinary64 54 (3/10) ∧
    (sampler ex T1 T2 M0 ⟨0,1,0⟩ ⟨0.052,0,0.966⟩ 0.3 0.05).getLast?
      = some (⟨0.052,0,0.966⟩, 0.3) ∧
    stepCount 0.3 0.05 = 6 ∧
    (emittedLoop ex T1 T2 M0 ⟨0,1,0⟩ ⟨0.052,0,0.966⟩ 0.3 0.05).get? 5
      = some (⟨0.052,0,0.966⟩, 0.3) := by
  have h6 : stepCount 0.3 0.05 = 6 := by unfold stepCount; norm_num; try rfl
  obtain ⟨ht1, ht2, ht3, ht4, ht5⟩ := round_loop_times
  refine ⟨stepCountIEEE_eq, ?_, ?_, ?_, ?_, ?_,
    sampler_getLast ex T1 T2 M0 ⟨0,1,0⟩ ⟨0.052,0,0.966⟩ 0.3 0.05, h6, ?_⟩
  · rw [round_005, ht1, round_03]; norm_num
  · rw [round_005, ht2, round_03]; norm_num
  · rw [round_005, ht3, round_03]; norm_num
  · rw [round_005, ht4, round_03]; norm_num
  · rw [round_005, ht5, round_03]; norm_num
  · rw [emittedLoop_eq, h6, List.get?_map, List.get?_range (by norm_num)]
    have ha : (((5 : ℕ) : ℚ) + 1) * 0.05 / 0.3 = 1 := by norm_num
    have ht : (((5 : ℕ) : ℚ) + 1) * 0.05 = 0.3 := by norm_num
    simp only [Option.map_some']
    rw [ha, ht, lerp_one]

/-- Claim C8: when totalDuration = 0, or more generally when
stepSize > totalDuration (with stepSize > 0), the loop generates no samples
and the output consists only of the single corrective final sample at
position endVector and time totalDuration; the loop body — and with it the
division by totalDuration — is never executed. -/
theorem C8_degenerate_step (ex : ℚ → ℚ) (T1 T2 M0 : ℚ) (sV eV : Vec3)
    (td ss : ℚ) (hss : 0 < ss) (h : td < ss) :
    stepCount td ss = 0 ∧
    emittedLoop ex T1 T2 M0 sV eV td ss = [] ∧
    sampler ex T1 T2 M0 sV eV td ss = [(eV, td)] := by
  have h0 := stepCount_eq_zero hss h
  refine ⟨h0, ?_, ?_⟩
  · rw [emittedLoop_eq, h0]; rfl
  · rw [sampler_eq, h0]; rfl

/-- Witness for C8 at totalDuration 0, stepSize 1. -/
theorem C8_degenerate_step_witness :
    (0:ℚ) < 1 ∧ (0:ℚ) < 1 ∧
    (stepCount 0 1 = 0 ∧
      emittedLoop (fun _ => 0) 1 (1/10) 1 ⟨0,1,0⟩ ⟨0,0,1⟩ 0 1 = [] ∧
      sampler (fun _ => 0) 1 (1/10) 1 ⟨0,1,0⟩ ⟨0,0,1⟩ 0 1 = [(⟨0,0,1⟩, 0)]) :=
  ⟨by norm_num, by norm_num,
    C8_degenerate_step (fun _ => 0) 1 (1/10) 1 ⟨0,1,0⟩ ⟨0,0,1⟩ 0 1
      (by norm_num) (by norm_num)⟩

/-- Claim C9: the corrective final sample is emitted unconditionally — when
stepSize exactly divides totalDuration (both positive, totalDuration =
k·stepSize), the emitted sequence ends with two consecutive samples that
both have time totalDuration and position endVector: the last loop sample,
at α = 1, is duplicated by the corrective sample. -/
theorem C9_corrective_duplicate (ex : ℚ → ℚ) (T1 T2 M0 : ℚ) (sV eV : Vec3)
    (td ss : ℚ) (htd : 0 < td) (hss : 0 < ss) (k : ℕ) (hk : td = (k : ℚ) * ss) :
    (sampler ex T1 T2 M0 sV eV td ss).length = k + 1 ∧
    (sampler ex T1 T2 M0 sV eV td ss).get? (k - 1) = some (eV, td) ∧
    (sampler ex T1 T2 M0 sV eV td ss).get? k = some (eV, td) := by
  subst hk
  have hsc : stepCount ((k : ℚ) * ss) ss = k := stepCount_natMul hss k
  have hk1 : 1 ≤ k := by
    rcases Nat.eq_zero_or_pos k with h0 | h0
    · subst h0; norm_num at htd
    · exact h0
  obtain ⟨m, rfl⟩ : ∃ m, k = m + 1 := ⟨k - 1, by omega⟩
  rw [sampler_eq, hsc]
  have hlen : ((List.range (m + 1)).map
      (fun (i : ℕ) => (lerp ((((i : ℚ) + 1) * ss) / (((m + 1 : ℕ) : ℚ) * ss)) sV eV,
        ((i : ℚ) + 1) * ss))).length = m + 1 := by simp
  have hcast : (((m + 1 : ℕ) : ℚ)) = (m : ℚ) + 1 := by push_cast; ring
  have hmul : ((m : ℚ) + 1) * ss ≠ 0 := by positivity
  refine ⟨?_, ?_, ?_⟩
  · rw [List.length_append, hlen]; rfl
  · have hm : m + 1 - 1 = m := by omega
    rw [hm, List.get?_append (by rw [hlen]; omega), List.get?_map,
      List.get?_range (by omega)]
    have ha : (((m : ℚ) + 1) * ss) / (((m + 1 : ℕ) : ℚ) * ss) = 1 := by
      rw [hcast]; exact div_self hmul
    simp only [Option.map_some']
    rw [ha, lerp_one, hcast]
  · rw [List.get?_append_right (by rw [hlen])]
    rw [hlen]
    simp

/-- Witness for C9 at totalDuration 1, stepSize 1, k = 1. -/
theorem C9_corrective_duplicate_witness :
    (0:ℚ) < 1 ∧ (0:ℚ) < 1 ∧ (1:ℚ) = ((1:ℕ):ℚ) * 1 ∧
    ((sampler (fun _ => 0) 1 (1/10) 1 ⟨0,1,0⟩ ⟨0,0,1⟩ 1 1).length = 1 + 1 ∧
      (sampler (fun _ => 0) 1 (1/10) 1 ⟨0,1,0⟩ ⟨0,0,1⟩ 1 1).get? (1 - 1)
        = some (⟨0,0,1⟩, 1) ∧
      (sampler (fun _ => 0) 1 (1/10) 1 ⟨0,1,0⟩ ⟨0,0,1⟩ 1 1).get? 1
        = some (⟨0,0,1⟩, 1)) :=
  ⟨by norm_num, by norm_num, by norm_num,
    C9_corrective_duplicate (fun _ => 0) 1 (1/10) 1 ⟨0,1,0⟩ ⟨0,0,1⟩ 1 1
      (by norm_num) (by norm_num) 1 (by norm_num)⟩

/-- Claim C10: every emitted position is the convex combination
(1 − α)·startVector + α·endVector with α ∈ [0, 1] non-decreasing over the
sequence, so each coordinate of the position moves monotonically from the
startVector coordinate to the endVector coordinate, and every sample lies
(coordinatewise) on the segment between the two endpoint vectors. -/
theorem C10_convex_combination (ex : ℚ → ℚ) (T1 T2 M0 : ℚ) (sV eV : Vec3)
    (td ss : ℚ) (htd : 0 < td) (hss : 0 < ss) :
    (∀ j, j < (sampler ex T1 T2 M0 sV eV td ss).length →
      ((sampler ex T1 T2 M0 sV eV td ss).map Prod.fst).get? j
        = some (lerp (alphaAt td ss j) sV eV)) ∧
    (∀ j, 0 ≤ alphaAt td ss j ∧ alphaAt td ss j ≤ 1) ∧
    (∀ j k, j ≤ k → alphaAt td ss j ≤ alphaAt td ss k) ∧
    (∀ p ∈ (sampler ex T1 T2 M0 sV eV td ss).map Prod.fst,
      (min sV.x eV.x ≤ p.x ∧ p.x ≤ max sV.x eV.x) ∧
      (min sV.y eV.y ≤ p.y ∧ p.y ≤ max sV.y eV.y) ∧
      (min sV.z eV.z ≤ p.z ∧ p.z ≤ max sV.z eV.z)) ∧
    (∀ j k p q, j ≤ k →
      ((sampler ex T1 T2 M0 sV eV td ss).map Prod.fst).get? j = some p →
      ((sampler ex T1 T2 M0 sV eV td ss).map Prod.fst).get? k = some q →
      ((sV.x ≤ eV.x → p.x ≤ q.x) ∧ (eV.x ≤ sV.x → q.x ≤ p.x)) ∧
      ((sV.y ≤ eV.y → p.y ≤ q.y) ∧ (eV.y ≤ sV.y → q.y ≤ p.y)) ∧
      ((sV.z ≤ eV.z → p.z ≤ q.z) ∧ (eV.z ≤ sV.z → q.z ≤ p.z))) := by
  have hlen : (sampler ex T1 T2 M0 sV eV td ss).length = stepCount td ss + 1 := by
    rw [sampler_eq]; simp
  have hpos : ∀ j, j < stepCount td ss + 1 →
      ((sampler ex T1 T2 M0 sV eV td ss).map Prod.fst).get? j
        = some (lerp (alphaAt td ss j) sV eV) := by
    intro j hj
    rw [sampler_eq, List.map_append, List.map_map]
    rcases lt_or_ge j (stepCount td ss) with h | h
    · rw [List.get?_append (by simpa using h), List.get?_map, List.get?_range h]
      simp only [Option.map_some']
      unfold alphaAt
      rw [if_pos h]
      rfl
    · have hj' : j = stepCount td ss := by omega
      subst hj'
      rw [List.get?_append_right (by simp)]
      unfold alphaAt
      rw [if_neg (lt_irrefl _), lerp_one]
      simp
  have halpha : ∀ j, 0 ≤ alphaAt td ss j ∧ alphaAt td ss j ≤ 1 := by
    intro j
    unfold alphaAt
    split
    · rename_i h
      refine ⟨by positivity, ?_⟩
      rw [div_le_one htd]
      exact loopTime_le hss h
    · exact ⟨by norm_num, le_refl 1⟩
  have hmono : ∀ j k, j ≤ k → alphaAt td ss j ≤ alphaAt td ss k := by
    intro j k hjk
    unfold alphaAt
    rcases lt_or_ge k (stepCount td ss) with hk | hk
    · have hj : j < stepCount td ss := lt_of_le_of_lt hjk hk
      rw [if_pos hj, if_pos hk]
      have hnum : ((j : ℚ) + 1) * ss ≤ ((k : ℚ) + 1) * ss := by
        have hc : (j : ℚ) ≤ (k : ℚ) := by exact_mod_cast hjk
        nlinarith
      exact div_le_div_of_nonneg_right hnum htd.le
    · rw [if_neg (not_lt.mpr hk)]
      rcases lt_or_ge j (stepCount td ss) with hj | hj
      · rw [if_pos hj, div_le_one htd]
        exact loopTime_le hss hj
      · rw [if_neg (not_lt.mpr hj)]
  refine ⟨fun j hj => hpos j (hlen ▸ hj), halpha, hmono, ?_, ?_⟩
  · intro p hp
    obtain ⟨n, hn⟩ := List.mem_iff_get?.mp hp
    have hlt : n < (sampler ex T1 T2 M0 sV eV td ss).length := by
      have := List.get?_eq_some.mp hn
      obtain ⟨h, _⟩ := this
      simpa using h
    have hpn := hpos n (hlen ▸ hlt)
    rw [hn] at hpn
    obtain ⟨ha0, ha1⟩ := halpha n
    have hpeq : p = lerp (alphaAt td ss n) sV eV := by
      injection hpn
    subst hpeq
    rw [lerp_x, lerp_y, lerp_z]
    exact ⟨lerp_scalar_bounds ha0 ha1, lerp_scalar_bounds ha0 ha1,
      lerp_scalar_bounds ha0 ha1⟩
  · intro j k p q hjk hjp hkq
    have hjl : j < (sampler ex T1 T2 M0 sV eV td ss).length := by
      obtain ⟨h, _⟩ := List.get?_eq_some.mp hjp
      simpa using h
    have hkl : k < (sampler ex T1 T2 M0 sV eV td ss).length := by
      obtain ⟨h, _⟩ := List.get?_eq_some.mp hkq
      simpa using h
    have hpj := hpos j (hlen ▸ hjl)
    have hpk := hpos k (hlen ▸ hkl)
    rw [hjp] at hpj
    rw [hkq] at hpk
    have hpeq : p = lerp (alphaAt td ss j) sV eV := by injection hpj
    have hqeq : q = lerp (alphaAt td ss k) sV eV := by injection hpk
    subst hpeq
    subst hqeq
    have hab := hmono j k hjk
    rw [lerp_x, lerp_y, lerp_z, lerp_x, lerp_y, lerp_z]
    exact ⟨⟨fun hse => lerp_scalar_mono hab hse, fun hse => lerp_scalar_anti hab hse⟩,
      ⟨fun hse => lerp_scalar_mono hab hse, fun hse => lerp_scalar_anti hab hse⟩,
      ⟨fun hse => lerp_scalar_mono hab hse, fun hse => lerp_scalar_anti hab hse⟩⟩

/-- Witness for C10 at startVector (0,1,0), endVector (0,0,1),
totalDuration 1, stepSize 1. -/
theorem C10_convex_combination_witness :
    (0:ℚ) < 1 ∧ (0:ℚ) < 1 ∧
    ((∀ j, j < (sampler (fun _ => 0) 1 (1/10) 1 ⟨0,1,0⟩ ⟨0,0,1⟩ 1 1).length →
        ((sampler (fun _ => 0) 1 (1/10) 1 ⟨0,1,0⟩ ⟨0,0,1⟩ 1 1).map Prod.fst).get? j
          = some (lerp (alphaAt 1 1 j) ⟨0,1,0⟩ ⟨0,0,1⟩)) ∧
      (∀ j, 0 ≤ alphaAt 1 1 j ∧ alphaAt 1 1 j ≤ 1) ∧
      (∀ j k, j ≤ k → alphaAt 1 1 j ≤ alphaAt 1 1 k) ∧
      (∀ p ∈ (sampler (fun _ => 0) 1 (1/10) 1 ⟨0,1,0⟩ ⟨0,0,1⟩ 1 1).map Prod.fst,
        (min (Vec3.mk 0 1 0).x (Vec3.mk 0 0 1).x ≤ p.x ∧
          p.x ≤ max (Vec3.mk 0 1 0).x (Vec3.mk 0 0 1).x) ∧
        (min (Vec3.mk 0 1 0).y (Vec3.mk 0 0 1).y ≤ p.y ∧
          p.y ≤ max (Vec3.mk 0 1 0).y (Vec3.mk 0 0 1).y) ∧
        (min (Vec3.mk 0 1 0).z (Vec3.mk 0 0 1).z ≤ p.z ∧
          p.z ≤ max (Vec3.mk 0 1 0).z (Vec3.mk 0 0 1).z)) ∧
      (∀ j k p q, j ≤ k →
        ((sampler (fun _ => 0) 1 (1/10) 1 ⟨0,1,0⟩ ⟨0,0,1⟩ 1 1).map Prod.fst).get? j
          = some p →
        ((sampler (fun _ => 0) 1 (1/10) 1 ⟨0,1,0⟩ ⟨0,0,1⟩ 1 1).map Prod.fst).get? k
          = some q →
        (((Vec3.mk 0 1 0).x ≤ (Vec3.mk 0 0 1).x → p.x ≤ q.x) ∧
          ((Vec3.mk 0 0 1).x ≤ (Vec3.mk 0 1 0).x → q.x ≤ p.x)) ∧
        (((Vec3.mk 0 1 0).y ≤ (Vec3.mk 0 0 1).y → p.y ≤ q.y) ∧
          ((Vec3.mk 0 0 1).y ≤ (Vec3.mk 0 1 0).y → q.y ≤ p.y)) ∧
        (((Vec3.mk 0 1 0).z ≤ (Vec3.mk 0 0 1).z → p.z ≤ q.z) ∧
          ((Vec3.mk 0 0 1).z ≤ (Vec3.mk 0 1 0).z → q.z ≤ p.z)))) :=
  ⟨by norm_num, by norm_num,
    C10_convex_combination (fun _ => 0) 1 (1/10) 1 ⟨0,1,0⟩ ⟨0,0,1⟩ 1 1
      (by norm_num) (by norm_num)⟩
